import Mathlib

/-!
Verification of the Hamiltonian term-normalizer specification of the
qmeq-examples repository (notebooks `appendix/00_types.ipynb` and
`appendix/01_symmetries.ipynb`).

The notebooks call the external library through `qmeq.Builder`, handing it a
single-particle Hamiltonian (`hsingle`), Coulomb interaction terms
(`coulomb`) and tunneling amplitudes (`tleads`), each in one of three input
shapes: dense array, index-triplet (or quintuple) list, or index-tuple
mapping.  The library converts every shape into one canonical sparse mapping
(a Python dictionary); notebook cell 8 of `00_types.ipynb` records the
canonical mappings produced for its concrete inputs.

The normalizer itself is not part of the repository sources, so its
operations are modelled from the specification, with the notebook's recorded
outputs as ground truth where they speak.  In particular, the notebook input

  hsingle = [[1.25, 2.0], [2.0, 0.75]]

produced the dictionary {(0, 1): 2.0, (0, 0): 1.25, (1, 1): 0.75} — the
nonzero lower-triangular entry (1, 0) is absent — while the dense tunneling
matrix kept every nonzero entry including (1, 0), (2, 1), (3, 1).  The model
below therefore restricts the dense single-particle conversion to the upper
triangle (i ≤ j) and keeps all entries for the tunneling conversion.

Coefficients are complex numbers; they are modelled as pairs of rationals
(real and imaginary part) so that every operation is computable and every
concrete scenario of the specification can be evaluated inside Lean.
-/

/-- A complex numeric coefficient, modelled as (real part, imaginary part)
with exact rational components. -/
abbrev Coef : Type := ℚ × ℚ

namespace Coef

/-- Complex conjugation on modelled coefficients. -/
def conj (z : Coef) : Coef := (z.1, -z.2)

@[simp] theorem conj_conj (z : Coef) : conj (conj z) = z := by
  cases z with
  | mk re im => simp [conj]

@[simp] theorem conj_zero : conj (0 : Coef) = 0 := by
  simp [conj]

end Coef

/-- Modelled from the spec: error taxonomy of the term normalizer (§7).
`ShapeError` for inputs that match none of the accepted shapes and
`IndexRangeError` for an index outside the declared valid range.
(`DuplicateConjugateError` is explicitly not runtime-checked.) -/
inductive NormError : Type
  | ShapeError : NormError
  | IndexRangeError : NormError
deriving DecidableEq

instance {ε α : Type} [DecidableEq ε] [DecidableEq α] :
    DecidableEq (Except ε α) := fun
  | .error e, .error f =>
      if h : e = f then .isTrue (by rw [h])
      else .isFalse (by intro hc; cases hc; exact h rfl)
  | .error _, .ok _ => .isFalse (by intro h; cases h)
  | .ok _, .error _ => .isFalse (by intro h; cases h)
  | .ok a, .ok b =>
      if h : a = b then .isTrue (by rw [h])
      else .isFalse (by intro hc; cases hc; exact h rfl)

/-- Modelled from the spec: the three accepted input shapes for
single-particle-like and tunneling-like terms — dense matrix (list of rows),
ordered sequence of triplets `(i, j, coefficient)`, and explicit mapping
from `(i, j)` to coefficient. -/
inductive SPInput : Type
  | dense : List (List Coef) → SPInput
  | triplets : List (ℕ × ℕ × Coef) → SPInput
  | mapping : List ((ℕ × ℕ) × Coef) → SPInput

/-- Modelled from the spec: accepted input shapes for interaction terms —
ordered sequence of quintuples `(i, j, k, l, coefficient)` or explicit
mapping from 4-tuples to coefficients.  (The dense 4-index form is noted by
the spec as impractical and is not exercised by the material.) -/
inductive IntInput : Type
  | quintuples : List (ℕ × ℕ × ℕ × ℕ × Coef) → IntInput
  | mapping : List ((ℕ × ℕ × ℕ × ℕ) × Coef) → IntInput

/-- Lookup in a canonical term mapping (an association list modelling a
Python dictionary): the value of the first entry whose key matches. -/
def mlookup {κ : Type} [DecidableEq κ] (m : List (κ × Coef)) (k : κ) :
    Option Coef :=
  (m.find? (fun e => decide (e.1 = k))).map Prod.snd

/-- Dictionary assignment `m[k] = v`: if the key is already present its
value is replaced in place, otherwise the entry is appended. -/
def dictUpdate {κ : Type} [DecidableEq κ] (m : List (κ × Coef)) (k : κ)
    (v : Coef) : List (κ × Coef) :=
  if m.any (fun e => decide (e.1 = k)) then
    m.map (fun e => if e.1 = k then (k, v) else e)
  else m ++ [(k, v)]

/-- Build a dictionary from an ordered sequence of key/value pairs by
repeated assignment: one entry per pair, in the order given, a later pair
with the same key overwriting an earlier one. -/
def buildDict {κ : Type} [DecidableEq κ] (l : List (κ × Coef)) :
    List (κ × Coef) :=
  l.foldl (fun m e => dictUpdate m e.1 e.2) []

/-- Entry `(i, j)` of a dense matrix given as a list of rows; out-of-bounds
reads default to zero. -/
def dget (M : List (List Coef)) (i j : ℕ) : Coef :=
  (M.getD i []).getD j 0

/-- A dense matrix has `r` rows of `c` entries each. -/
def denseShape (M : List (List Coef)) (r c : ℕ) : Prop :=
  M.length = r ∧ ∀ row ∈ M, row.length = c

instance (M : List (List Coef)) (r c : ℕ) : Decidable (denseShape M r c) :=
  inferInstanceAs (Decidable (_ ∧ _))

/-- All index pairs of an `r × c` dense matrix, row-major. -/
def allPairs (r c : ℕ) : List (ℕ × ℕ) :=
  (List.range r).flatMap (fun i => (List.range c).map (fun j => (i, j)))

/-- Canonical mapping extracted from a dense matrix keeping every nonzero
entry (used for the tunneling conversion, which performs no implicit
conjugate-pair generation). -/
def denseAll (M : List (List Coef)) (r c : ℕ) : List ((ℕ × ℕ) × Coef) :=
  ((allPairs r c).filter (fun p => decide (dget M p.1 p.2 ≠ 0))).map
    (fun p => (p, dget M p.1 p.2))

/-- Canonical mapping extracted from a dense single-particle matrix: only
upper-triangular (`i ≤ j`) nonzero entries are kept, the lower triangle
being regenerated as the Hermitian conjugate by the consumer (behavior
recorded in notebook cell 8 of `00_types.ipynb`). -/
def denseUpper (M : List (List Coef)) (n : ℕ) : List ((ℕ × ℕ) × Coef) :=
  ((allPairs n n).filter
      (fun p => decide (p.1 ≤ p.2 ∧ dget M p.1 p.2 ≠ 0))).map
    (fun p => (p, dget M p.1 p.2))

/-- Key/value view of a triplet `(i, j, coefficient)`. -/
def tripletEntry (t : ℕ × ℕ × Coef) : (ℕ × ℕ) × Coef :=
  ((t.1, t.2.1), t.2.2)

/-- Key/value view of a quintuple `(i, j, k, l, coefficient)`. -/
def quintEntry (q : ℕ × ℕ × ℕ × ℕ × Coef) : (ℕ × ℕ × ℕ × ℕ) × Coef :=
  ((q.1, q.2.1, q.2.2.1, q.2.2.2.1), q.2.2.2.2)

/-- Modelled from the spec: `normalize_single_particle_like(input, dimension)`
(§4.1).  A dense `dimension × dimension` matrix contributes its nonzero
upper-triangular entries (zero entries elided, lower triangle left to the
consumer's conjugate regeneration, per the recorded notebook output); a
triplet sequence becomes one entry per triplet with last-write-wins; a
mapping is copied as-is, explicit zeros included.  Indices outside
`[0, dimension)` fail with `IndexRangeError`, a dense matrix of the wrong
shape with `ShapeError`; on failure no partial mapping is produced. -/
def normalize_single_particle_like (input : SPInput) (dimension : ℕ) :
    Except NormError (List ((ℕ × ℕ) × Coef)) :=
  match input with
  | .dense M =>
      if denseShape M dimension dimension then
        .ok (denseUpper M dimension)
      else .error .ShapeError
  | .triplets ts =>
      if ∀ t ∈ ts, t.1 < dimension ∧ t.2.1 < dimension then
        .ok (buildDict (ts.map tripletEntry))
      else .error .IndexRangeError
  | .mapping m =>
      if ∀ e ∈ m, e.1.1 < dimension ∧ e.1.2 < dimension then
        .ok m
      else .error .IndexRangeError

/-- Modelled from the spec: `normalize_tunneling_like(input, lead_count,
orbital_count)` (§4.1).  Same shape acceptance as the single-particle case,
but the row index ranges over `[0, lead_count)`, the column index over
`[0, orbital_count)`, and no implicit conjugate-pair generation is
performed: every nonzero dense entry is kept (behavior recorded in notebook
cell 8 of `00_types.ipynb` for the 4 × 2 `tleads` matrix). -/
def normalize_tunneling_like (input : SPInput) (lead_count orbital_count : ℕ) :
    Except NormError (List ((ℕ × ℕ) × Coef)) :=
  match input with
  | .dense T =>
      if denseShape T lead_count orbital_count then
        .ok (denseAll T lead_count orbital_count)
      else .error .ShapeError
  | .triplets ts =>
      if ∀ t ∈ ts, t.1 < lead_count ∧ t.2.1 < orbital_count then
        .ok (buildDict (ts.map tripletEntry))
      else .error .IndexRangeError
  | .mapping m =>
      if ∀ e ∈ m, e.1.1 < lead_count ∧ e.1.2 < orbital_count then
        .ok m
      else .error .IndexRangeError

/-- Modelled from the spec: `normalize_interaction_like(input)` (§4.1).
Keys are 4-tuples `(i, j, k, l)`; a quintuple sequence follows the same
last-write-wins rule as triplets, a mapping is copied as-is, and no
conjugate term is ever generated. -/
def normalize_interaction_like (input : IntInput) :
    List ((ℕ × ℕ × ℕ × ℕ) × Coef) :=
  match input with
  | .quintuples qs => buildDict (qs.map quintEntry)
  | .mapping m => m

/-- The dense single-particle matrix of notebook cell 6 of
`00_types.ipynb`: `[[1.25, 2.0], [2.0, 0.75]]` (gate voltage 1.0, magnetic
field 0.5, `omega` 2.0). -/
def notebookHsingle : List (List Coef) :=
  [[(1.25, 0), (2, 0)], [(2, 0), (0.75, 0)]]

/-- `1.25 = 5/4` in the kernel-computable normal form. -/
theorem oneQuarter5 : (1.25 : ℚ) = mkRat 5 4 := by norm_num

/-- `0.75 = 3/4` in the kernel-computable normal form. -/
theorem threeQuarter : (0.75 : ℚ) = mkRat 3 4 := by norm_num

section DictLemmas

variable {κ : Type} [DecidableEq κ]

@[simp] theorem mlookup_nil (k : κ) : mlookup ([] : List (κ × Coef)) k = none :=
  rfl

theorem find?_map_update_self (m : List (κ × Coef)) (k : κ) (v : Coef)
    (h : m.any (fun e => decide (e.1 = k)) = true) :
    (m.map (fun e => if e.1 = k then (k, v) else e)).find?
      (fun e => decide (e.1 = k)) = some (k, v) := by
  induction m with
  | nil => simp at h
  | cons e t ih =>
    by_cases he : e.1 = k
    · rw [List.map_cons, if_pos he, List.find?_cons_of_pos _ (by simp)]
    · have h' : t.any (fun e => decide (e.1 = k)) = true := by
        simpa [List.any_cons, he] using h
      rw [List.map_cons, if_neg he,
          List.find?_cons_of_neg _ (by simpa using he)]
      exact ih h'

theorem find?_append_single_self (m : List (κ × Coef)) (k : κ) (v : Coef)
    (h : m.any (fun e => decide (e.1 = k)) = false) :
    (m ++ [(k, v)]).find? (fun e => decide (e.1 = k)) = some (k, v) := by
  induction m with
  | nil => simp [List.find?]
  | cons e t ih =>
    rw [List.any_cons, Bool.or_eq_false_iff] at h
    obtain ⟨h1, h2⟩ := h
    have he : ¬ e.1 = k := by simpa using h1
    rw [List.cons_append, List.find?_cons_of_neg _ (by simpa using he)]
    exact ih h2

theorem mlookup_dictUpdate_self (m : List (κ × Coef)) (k : κ) (v : Coef) :
    mlookup (dictUpdate m k v) k = some v := by
  unfold dictUpdate
  by_cases h : m.any (fun e => decide (e.1 = k)) = true
  · rw [if_pos h]
    unfold mlookup
    rw [find?_map_update_self m k v h]
    rfl
  · rw [if_neg h]
    unfold mlookup
    rw [find?_append_single_self m k v (by rwa [Bool.not_eq_true] at h)]
    rfl

theorem find?_map_update_ne (m : List (κ × Coef)) (k k' : κ) (v : Coef)
    (h : k' ≠ k) :
    (m.map (fun e => if e.1 = k then (k, v) else e)).find?
        (fun e => decide (e.1 = k')) =
      m.find? (fun e => decide (e.1 = k')) := by
  induction m with
  | nil => rfl
  | cons e t ih =>
    rw [List.map_cons]
    by_cases he : e.1 = k
    · have hek' : ¬ e.1 = k' := fun hc => h (hc.symm.trans he)
      rw [if_pos he, List.find?_cons_of_neg _ (by simpa using Ne.symm h),
          List.find?_cons_of_neg _ (by simpa using hek')]
      exact ih
    · rw [if_neg he]
      by_cases hek' : e.1 = k'
      · rw [List.find?_cons_of_pos _ (by simpa using hek'),
            List.find?_cons_of_pos _ (by simpa using hek')]
      · rw [List.find?_cons_of_neg _ (by simpa using hek'),
            List.find?_cons_of_neg _ (by simpa using hek')]
        exact ih

theorem find?_append_single_ne (m : List (κ × Coef)) (k k' : κ) (v : Coef)
    (h : k' ≠ k) :
    (m ++ [(k, v)]).find? (fun e => decide (e.1 = k')) =
      m.find? (fun e => decide (e.1 = k')) := by
  induction m with
  | nil =>
    rw [List.nil_append, List.find?_cons_of_neg _ (by simpa using Ne.symm h)]
  | cons e t ih =>
    rw [List.cons_append]
    by_cases hek' : e.1 = k'
    · rw [List.find?_cons_of_pos _ (by simpa using hek'),
          List.find?_cons_of_pos _ (by simpa using hek')]
    · rw [List.find?_cons_of_neg _ (by simpa using hek'),
          List.find?_cons_of_neg _ (by simpa using hek')]
      exact ih

theorem mlookup_dictUpdate_ne (m : List (κ × Coef)) (k k' : κ) (v : Coef)
    (h : k' ≠ k) : mlookup (dictUpdate m k v) k' = mlookup m k' := by
  unfold dictUpdate mlookup
  by_cases hany : m.any (fun e => decide (e.1 = k)) = true
  · rw [if_pos hany, find?_map_update_ne m k k' v h]
  · rw [if_neg hany, find?_append_single_ne m k k' v h]

theorem mlookup_foldl_no_key (l : List (κ × Coef)) (m : List (κ × Coef))
    (k : κ) (h : ∀ e ∈ l, e.1 ≠ k) :
    mlookup (l.foldl (fun m e => dictUpdate m e.1 e.2) m) k = mlookup m k := by
  induction l generalizing m with
  | nil => rfl
  | cons e t ih =>
    rw [List.foldl_cons]
    rw [ih _ (fun e' he' => h e' (List.mem_cons_of_mem _ he'))]
    exact mlookup_dictUpdate_ne m e.1 k e.2
      (fun hc => h e (List.mem_cons_self _ _) hc.symm)

theorem mlookup_foldl_key_mem (l : List (κ × Coef)) (m : List (κ × Coef))
    (k : κ)
    (h : mlookup (l.foldl (fun m e => dictUpdate m e.1 e.2) m) k ≠ none) :
    mlookup m k ≠ none ∨ k ∈ l.map Prod.fst := by
  induction l generalizing m with
  | nil => exact Or.inl h
  | cons e t ih =>
    rw [List.foldl_cons] at h
    rcases ih _ h with h' | h'
    · by_cases hek : k = e.1
      · exact Or.inr (by simp [hek])
      · rw [mlookup_dictUpdate_ne m e.1 k e.2 hek] at h'
        exact Or.inl h'
    · exact Or.inr (List.mem_cons_of_mem _ h')

theorem mlookup_map_key (l : List κ) (f : κ → Coef) (k : κ) :
    mlookup (l.map (fun q => (q, f q))) k =
      if k ∈ l then some (f k) else none := by
  induction l with
  | nil => rfl
  | cons q t ih =>
    by_cases hq : q = k
    · subst hq
      unfold mlookup
      rw [List.map_cons, List.find?_cons_of_pos] <;> simp
    · unfold mlookup at ih ⊢
      rw [List.map_cons, List.find?_cons_of_neg _ (by simpa using hq), ih]
      by_cases hk : k ∈ t
      · rw [if_pos hk, if_pos (List.mem_cons_of_mem _ hk)]
      · rw [if_neg hk, if_neg ?_]
        intro hc
        rcases List.mem_cons.mp hc with h1 | h1
        · exact hq h1.symm
        · exact hk h1

end DictLemmas

theorem mem_allPairs (r c : ℕ) (p : ℕ × ℕ) :
    p ∈ allPairs r c ↔ p.1 < r ∧ p.2 < c := by
  cases p with
  | mk a b =>
    simp [allPairs, List.mem_flatMap, List.mem_map, List.mem_range]

theorem mlookup_denseAll (M : List (List Coef)) (r c : ℕ) (p : ℕ × ℕ) :
    mlookup (denseAll M r c) p =
      if p.1 < r ∧ p.2 < c ∧ dget M p.1 p.2 ≠ 0 then some (dget M p.1 p.2)
      else none := by
  unfold denseAll
  rw [mlookup_map_key]
  have hmem : p ∈ (allPairs r c).filter
        (fun p => decide (dget M p.1 p.2 ≠ 0)) ↔
      p.1 < r ∧ p.2 < c ∧ dget M p.1 p.2 ≠ 0 := by
    rw [List.mem_filter, mem_allPairs]
    simp only [decide_eq_true_eq]
    tauto
  by_cases h : p.1 < r ∧ p.2 < c ∧ dget M p.1 p.2 ≠ 0
  · rw [if_pos (hmem.mpr h), if_pos h]
  · rw [if_neg (fun hc => h (hmem.mp hc)), if_neg h]

theorem mlookup_denseUpper (M : List (List Coef)) (n : ℕ) (p : ℕ × ℕ) :
    mlookup (denseUpper M n) p =
      if p.1 < n ∧ p.2 < n ∧ p.1 ≤ p.2 ∧ dget M p.1 p.2 ≠ 0 then
        some (dget M p.1 p.2)
      else none := by
  unfold denseUpper
  rw [mlookup_map_key]
  have hmem : p ∈ (allPairs n n).filter
        (fun p => decide (p.1 ≤ p.2 ∧ dget M p.1 p.2 ≠ 0)) ↔
      p.1 < n ∧ p.2 < n ∧ p.1 ≤ p.2 ∧ dget M p.1 p.2 ≠ 0 := by
    rw [List.mem_filter, mem_allPairs]
    simp only [decide_eq_true_eq]
    tauto
  by_cases h : p.1 < n ∧ p.2 < n ∧ p.1 ≤ p.2 ∧ dget M p.1 p.2 ≠ 0
  · rw [if_pos (hmem.mpr h), if_pos h]
  · rw [if_neg (fun hc => h (hmem.mp hc)), if_neg h]

/-- The canonical mapping recorded by notebook cell 8 of `00_types.ipynb`
for `notebookHsingle`: `{(0, 0): 1.25, (0, 1): 2.0, (1, 1): 0.75}`. -/
def notebookHsingleDict : List ((ℕ × ℕ) × Coef) :=
  [((0, 0), (1.25, 0)), ((0, 1), (2, 0)), ((1, 1), (0.75, 0))]

/-- C1: the claim that `normalize_single_particle_like` on a dense matrix
keeps every nonzero entry is false: on the notebook matrix
`[[1.25, 2.0], [2.0, 0.75]]` the entry `(1, 0) = 2.0` is nonzero, yet the
canonical mapping contains no entry for `(1, 0)` (only the upper triangle
is kept, as the notebook's recorded output shows). -/
theorem C1_counterexample :
    dget notebookHsingle 1 0 ≠ 0 ∧
      normalize_single_particle_like (.dense notebookHsingle) 2 =
        .ok notebookHsingleDict ∧
      mlookup notebookHsingleDict (1, 0) = none := by
  rw [notebookHsingle, notebookHsingleDict, oneQuarter5, threeQuarter]
  decide

/-- C1 (amended): for every dense `dimension × dimension` matrix `M`,
`normalize_single_particle_like(M)` succeeds and produces a canonical
mapping containing exactly the index pairs `(i, j)` with `i ≤ j` and
`M[i][j] ≠ 0`, each mapped to `M[i][j]`, and no entry for any other pair
(in particular none for zero entries and none for the strict lower
triangle). -/
theorem C1_dense_exact_upper (M : List (List Coef)) (n : ℕ)
    (h : denseShape M n n) :
    ∃ cm, normalize_single_particle_like (.dense M) n = .ok cm ∧
      ∀ i j : ℕ, mlookup cm (i, j) =
        if i < n ∧ j < n ∧ i ≤ j ∧ dget M i j ≠ 0 then some (dget M i j)
        else none := by
  refine ⟨denseUpper M n, ?_, fun i j => mlookup_denseUpper M n (i, j)⟩
  simp only [normalize_single_particle_like]
  rw [if_pos h]

/-- Witness for C1 (amended) at the notebook matrix. -/
theorem C1_dense_exact_upper_witness :
    denseShape notebookHsingle 2 2 ∧
      (∃ cm, normalize_single_particle_like (.dense notebookHsingle) 2 =
          .ok cm ∧
        ∀ i j : ℕ, mlookup cm (i, j) =
          if i < 2 ∧ j < 2 ∧ i ≤ j ∧ dget notebookHsingle i j ≠ 0 then
            some (dget notebookHsingle i j)
          else none) :=
  ⟨⟨rfl, by decide⟩, C1_dense_exact_upper notebookHsingle 2 ⟨rfl, by decide⟩⟩

/-- Dense expansion of a canonical mapping over indices `[0, n)`, treating
every index pair absent from the mapping as zero (the round-trip reading
stated by the specification). -/
def expandDenseZero (m : List ((ℕ × ℕ) × Coef)) (n : ℕ) : List (List Coef) :=
  (List.range n).map
    (fun i => (List.range n).map (fun j => (mlookup m (i, j)).getD 0))

/-- Entry `(i, j)` of the consumer-side dense expansion of a canonical
single-particle mapping: a present entry is used as-is, an absent pair
`(i, j)` is regenerated as the complex conjugate of entry `(j, i)` when
that is present, and zero otherwise. -/
def expandEntryConj (m : List ((ℕ × ℕ) × Coef)) (i j : ℕ) : Coef :=
  match mlookup m (i, j) with
  | some v => v
  | none =>
    match mlookup m (j, i) with
    | some v => Coef.conj v
    | none => 0

/-- Dense expansion of a canonical single-particle mapping with Hermitian
regeneration of absent conjugate pairs. -/
def expandDenseConj (m : List ((ℕ × ℕ) × Coef)) (n : ℕ) : List (List Coef) :=
  (List.range n).map
    (fun i => (List.range n).map (fun j => expandEntryConj m i j))

/-- Hermiticity of a dense matrix over the declared index range. -/
def IsHermitian (M : List (List Coef)) (n : ℕ) : Prop :=
  ∀ i < n, ∀ j < n, dget M j i = Coef.conj (dget M i j)

theorem expandEntryConj_denseUpper (M : List (List Coef)) (n : ℕ)
    (hH : IsHermitian M n) (i j : ℕ) (hi : i < n) (hj : j < n) :
    expandEntryConj (denseUpper M n) i j = dget M i j := by
  unfold expandEntryConj
  rw [mlookup_denseUpper M n (i, j), mlookup_denseUpper M n (j, i)]
  by_cases hij : i ≤ j
  · by_cases hz : dget M i j = 0
    · rw [if_neg (by tauto)]
      by_cases hji : j ≤ i
      · have hzz : dget M j i = 0 := by
          rw [hH i hi j hj, hz, Coef.conj_zero]
        rw [if_neg (by tauto), hz]
      · rw [if_neg (by tauto), hz]
    · rw [if_pos ⟨hi, hj, hij, hz⟩]
  · have hji : j ≤ i := le_of_lt (lt_of_not_le hij)
    rw [if_neg (by tauto)]
    by_cases hz : dget M j i = 0
    · have hz' : dget M i j = 0 := by
        rw [hH j hj i hi, hz, Coef.conj_zero]
      rw [if_neg (by tauto), hz']
    · rw [if_pos ⟨hj, hi, hji, hz⟩]
      show Coef.conj (dget M j i) = dget M i j
      rw [hH i hi j hj, Coef.conj_conj]

theorem map_range_dget (M : List (List Coef)) (n : ℕ)
    (hs : denseShape M n n) (f : ℕ → ℕ → Coef)
    (hf : ∀ i < n, ∀ j < n, f i j = dget M i j) :
    (List.range n).map (fun i => (List.range n).map (fun j => f i j)) = M := by
  obtain ⟨hlen, hrow⟩ := hs
  apply List.ext_getElem
  · simpa using hlen.symm
  · intro i h1 h2
    rw [List.getElem_map, List.getElem_range]
    have hi : i < n := by simpa using h1
    have hrowlen : M[i].length = n := hrow M[i] (M.getElem_mem h2)
    apply List.ext_getElem
    · simpa using hrowlen.symm
    · intro j hj1 hj2
      rw [List.getElem_map, List.getElem_range]
      have hj : j < n := by simpa using hj1
      rw [hf i hi j hj]
      unfold dget
      rw [List.getD_eq_getElem?_getD, List.getD_eq_getElem?_getD,
          List.getElem?_eq_getElem h2, Option.getD_some,
          List.getElem?_eq_getElem hj2, Option.getD_some]

/-- C3: the round-trip as stated by the claim fails: `notebookHsingle` is
Hermitian, yet expanding its canonical mapping back to a dense matrix with
absent pairs treated as zero loses the strict lower triangle (entry
`(1, 0)` becomes `0` instead of `2.0`), so the original matrix is not
reproduced. -/
theorem C3_counterexample :
    IsHermitian notebookHsingle 2 ∧
      normalize_single_particle_like (.dense notebookHsingle) 2 =
        .ok notebookHsingleDict ∧
      expandDenseZero notebookHsingleDict 2 ≠ notebookHsingle := by
  rw [notebookHsingle, notebookHsingleDict, oneQuarter5, threeQuarter]
  refine ⟨?_, by decide, by decide⟩
  intro i hi j hj
  interval_cases i <;> interval_cases j <;> decide

/-- C3 (amended): for every Hermitian dense square matrix `M`, normalizing
and then expanding back to a dense matrix — with an absent pair `(i, j)`
regenerated as the complex conjugate of entry `(j, i)` when present and
zero otherwise, which is how the consumer reads the canonical mapping —
reproduces `M` exactly. -/
theorem C3_roundtrip_conj (M : List (List Coef)) (n : ℕ)
    (hs : denseShape M n n) (hH : IsHermitian M n) :
    ∃ cm, normalize_single_particle_like (.dense M) n = .ok cm ∧
      expandDenseConj cm n = M := by
  refine ⟨denseUpper M n, ?_, ?_⟩
  · simp only [normalize_single_particle_like]
    rw [if_pos hs]
  · unfold expandDenseConj
    exact map_range_dget M n hs _
      (fun i hi j hj => expandEntryConj_denseUpper M n hH i j hi hj)

/-- Witness for C3 (amended) at the notebook matrix. -/
theorem C3_roundtrip_conj_witness :
    denseShape notebookHsingle 2 2 ∧ IsHermitian notebookHsingle 2 ∧
      (∃ cm, normalize_single_particle_like (.dense notebookHsingle) 2 =
          .ok cm ∧ expandDenseConj cm 2 = notebookHsingle) := by
  have hH : IsHermitian notebookHsingle 2 := by
    rw [notebookHsingle, oneQuarter5, threeQuarter]
    intro i hi j hj
    interval_cases i <;> interval_cases j <;> decide
  exact ⟨⟨rfl, by decide⟩, hH,
    C3_roundtrip_conj notebookHsingle 2 ⟨rfl, by decide⟩ hH⟩

/-- C2: normalizing the dense 2×2 matrix `[[1.25, 2.0], [2.0, 0.75]]`
yields exactly the canonical mapping
`{(0, 0): 1.25, (0, 1): 2.0, (1, 1): 0.75}`, and the nonzero entry at key
`(1, 0)` is omitted from the result. -/
theorem C2_notebook_dense_scenario :
    normalize_single_particle_like (.dense notebookHsingle) 2 =
      .ok [((0, 0), (1.25, 0)), ((0, 1), (2, 0)), ((1, 1), (0.75, 0))] ∧
      mlookup [((0, 0), ((1.25 : ℚ), (0 : ℚ))), ((0, 1), (2, 0)),
        ((1, 1), (0.75, 0))] (1, 0) = none := by
  rw [notebookHsingle, oneQuarter5, threeQuarter]
  decide

/-- C4: an input containing an index outside `[0, dimension)` — in a
triplet or in a mapping key — makes `normalize_single_particle_like` fail
with `IndexRangeError`; the index is not clamped or wrapped and no partial
canonical mapping is returned (the result is the bare error). -/
theorem C4_index_range_error (dimension : ℕ) :
    (∀ ts : List (ℕ × ℕ × Coef),
        (∃ t ∈ ts, dimension ≤ t.1 ∨ dimension ≤ t.2.1) →
        normalize_single_particle_like (.triplets ts) dimension =
          .error .IndexRangeError) ∧
      (∀ m : List ((ℕ × ℕ) × Coef),
        (∃ e ∈ m, dimension ≤ e.1.1 ∨ dimension ≤ e.1.2) →
        normalize_single_particle_like (.mapping m) dimension =
          .error .IndexRangeError) := by
  constructor
  · intro ts h
    obtain ⟨t, ht, hor⟩ := h
    simp only [normalize_single_particle_like]
    rw [if_neg]
    intro hall
    obtain ⟨h1, h2⟩ := hall t ht
    rcases hor with h' | h'
    · exact absurd h1 (not_lt.mpr h')
    · exact absurd h2 (not_lt.mpr h')
  · intro m h
    obtain ⟨e, he, hor⟩ := h
    simp only [normalize_single_particle_like]
    rw [if_neg]
    intro hall
    obtain ⟨h1, h2⟩ := hall e he
    rcases hor with h' | h'
    · exact absurd h1 (not_lt.mpr h')
    · exact absurd h2 (not_lt.mpr h')

/-- Witness for C4 at the spec's scenario: dimension 2 and the triplet
`(2, 0, 5.0)`. -/
theorem C4_index_range_error_witness :
    (∃ t ∈ [((2 : ℕ), (0 : ℕ), ((5 : ℚ), (0 : ℚ)))],
        2 ≤ t.1 ∨ 2 ≤ t.2.1) ∧
      normalize_single_particle_like (.triplets [(2, 0, (5, 0))]) 2 =
        .error .IndexRangeError :=
  ⟨by decide, (C4_index_range_error 2).1 [(2, 0, (5, 0))] (by decide)⟩

/-- C5: in a triplet sequence where the key `(i, j)` appears exactly twice,
first with coefficient `a` and later with coefficient `b` (and all indices
are in range), normalization succeeds and the canonical mapping sends
`(i, j)` to `b`: the later triplet overwrites the earlier one. -/
theorem C5_last_write_wins (dimension : ℕ) (l1 l2 l3 : List (ℕ × ℕ × Coef))
    (i j : ℕ) (a b : Coef)
    (hrange : ∀ t ∈ l1 ++ (i, j, a) :: l2 ++ (i, j, b) :: l3,
        t.1 < dimension ∧ t.2.1 < dimension)
    (htwice : ∀ t ∈ l1 ++ l2 ++ l3, (t.1, t.2.1) ≠ (i, j)) :
    ∃ cm, normalize_single_particle_like
        (.triplets (l1 ++ (i, j, a) :: l2 ++ (i, j, b) :: l3)) dimension =
        .ok cm ∧ mlookup cm (i, j) = some b := by
  refine ⟨buildDict ((l1 ++ (i, j, a) :: l2 ++ (i, j, b) :: l3).map
    tripletEntry), ?_, ?_⟩
  · simp only [normalize_single_particle_like]
    rw [if_pos hrange]
  · unfold buildDict
    rw [List.map_append, List.map_cons, List.map_append, List.map_cons,
        List.foldl_append, List.foldl_cons, List.foldl_append,
        List.foldl_cons]
    have hkey : ∀ e ∈ l3.map tripletEntry, e.1 ≠ (i, j) := by
      intro e he
      obtain ⟨t, ht, rfl⟩ := List.mem_map.mp he
      exact htwice t (by simp [ht])
    rw [mlookup_foldl_no_key _ _ _ hkey]
    exact mlookup_dictUpdate_self _ (i, j) b

/-- Witness for C5: dimension 2 with the key `(0, 1)` appearing first with
coefficient 1 and then with coefficient 2. -/
theorem C5_last_write_wins_witness :
    (∀ t ∈ [((0 : ℕ), (1 : ℕ), ((1 : ℚ), (0 : ℚ))), (0, 1, (2, 0))],
        t.1 < 2 ∧ t.2.1 < 2) ∧
      (∃ cm, normalize_single_particle_like
          (.triplets [(0, 1, ((1 : ℚ), (0 : ℚ))), (0, 1, (2, 0))]) 2 =
          .ok cm ∧ mlookup cm (0, 1) = some (2, 0)) := by
  refine ⟨by decide, ?_⟩
  have h := C5_last_write_wins 2 [] [] [] 0 1 (1, 0) (2, 0) (by decide)
    (by decide)
  simpa using h

/-- C6: on a mapping-form input whose keys are in range,
`normalize_single_particle_like` is the identity transform: the output is
the input mapping entry for entry, so explicit zero-valued entries supplied
by the caller are preserved rather than dropped. -/
theorem C6_mapping_identity (m : List ((ℕ × ℕ) × Coef)) (dimension : ℕ)
    (h : ∀ e ∈ m, e.1.1 < dimension ∧ e.1.2 < dimension) :
    normalize_single_particle_like (.mapping m) dimension = .ok m := by
  simp only [normalize_single_particle_like]
  rw [if_pos h]

/-- Witness for C6 at a mapping that contains an explicit zero entry: it is
returned unchanged, zero entry included. -/
theorem C6_mapping_identity_witness :
    (∀ e ∈ [(((0 : ℕ), (0 : ℕ)), ((2 : ℚ), (0 : ℚ))), ((0, 1), (0, 0))],
        e.1.1 < 2 ∧ e.1.2 < 2) ∧
      normalize_single_particle_like
          (.mapping [(((0 : ℕ), (0 : ℕ)), ((2 : ℚ), (0 : ℚ))),
            ((0, 1), (0, 0))]) 2 =
        .ok [(((0 : ℕ), (0 : ℕ)), ((2 : ℚ), (0 : ℚ))), ((0, 1), (0, 0))] :=
  ⟨by decide, C6_mapping_identity _ 2 (by decide)⟩

/-- C7: normalizing the quintuple-list interaction input
`[[0, 1, 1, 0, 20.0]]` yields exactly the canonical mapping
`{(0, 1, 1, 0): 20.0}`, and `normalize_interaction_like` never generates a
conjugate term: every key of the canonical mapping of a quintuple-list
input is a key supplied by some quintuple of that input. -/
theorem C7_interaction_no_conjugate :
    normalize_interaction_like
        (.quintuples [(0, 1, 1, 0, ((20 : ℚ), (0 : ℚ)))]) =
      [((0, 1, 1, 0), (20, 0))] ∧
      ∀ (qs : List (ℕ × ℕ × ℕ × ℕ × Coef)) (k : ℕ × ℕ × ℕ × ℕ),
        mlookup (normalize_interaction_like (.quintuples qs)) k ≠ none →
        k ∈ qs.map (fun q => (q.1, q.2.1, q.2.2.1, q.2.2.2.1)) := by
  constructor
  · rfl
  · intro qs k h
    unfold normalize_interaction_like buildDict at h
    rcases mlookup_foldl_key_mem _ _ _ h with h' | h'
    · exact absurd h' (by simp)
    · rw [List.map_map] at h'
      simpa [quintEntry, Function.comp] using h'

/-- Witness for C7: the key `(0, 1, 1, 0)` is looked up in the canonical
mapping of the scenario input and is indeed a supplied key. -/
theorem C7_interaction_no_conjugate_witness :
    normalize_interaction_like
        (.quintuples [(0, 1, 1, 0, ((20 : ℚ), (0 : ℚ)))]) =
      [((0, 1, 1, 0), (20, 0))] ∧
      mlookup (normalize_interaction_like
          (.quintuples [(0, 1, 1, 0, ((20 : ℚ), (0 : ℚ)))]))
        (0, 1, 1, 0) ≠ none ∧
      (0, 1, 1, 0) ∈ [((0 : ℕ), (1 : ℕ), (1 : ℕ), (0 : ℕ),
          ((20 : ℚ), (0 : ℚ)))].map
        (fun q => (q.1, q.2.1, q.2.2.1, q.2.2.2.1)) :=
  ⟨C7_interaction_no_conjugate.1, by decide,
    C7_interaction_no_conjugate.2 [(0, 1, 1, 0, ((20 : ℚ), (0 : ℚ)))]
      (0, 1, 1, 0) (by decide)⟩

/-- C8: `normalize_tunneling_like` accepts the same three shapes as the
single-particle case, with the row index valid over `[0, lead_count)` and
the column index over `[0, orbital_count)`; keys of the result are
`(lead_index, orbital_index)` pairs, and no implicit conjugate-pair
generation is performed: the canonical mapping of a dense
`lead_count × orbital_count` matrix contains exactly its nonzero entries —
including entries with row index greater than column index. -/
theorem C8_tunneling_shapes (lead_count orbital_count : ℕ) :
    (∀ T : List (List Coef), denseShape T lead_count orbital_count →
        ∃ cm, normalize_tunneling_like (.dense T) lead_count orbital_count =
            .ok cm ∧
          ∀ a i : ℕ, mlookup cm (a, i) =
            if a < lead_count ∧ i < orbital_count ∧ dget T a i ≠ 0 then
              some (dget T a i)
            else none) ∧
      (∀ ts : List (ℕ × ℕ × Coef),
        (∀ t ∈ ts, t.1 < lead_count ∧ t.2.1 < orbital_count) →
        normalize_tunneling_like (.triplets ts) lead_count orbital_count =
          .ok (buildDict (ts.map tripletEntry))) ∧
      (∀ m : List ((ℕ × ℕ) × Coef),
        (∀ e ∈ m, e.1.1 < lead_count ∧ e.1.2 < orbital_count) →
        normalize_tunneling_like (.mapping m) lead_count orbital_count =
          .ok m) := by
  refine ⟨fun T hT => ⟨denseAll T lead_count orbital_count, ?_,
      fun a i => mlookup_denseAll T lead_count orbital_count (a, i)⟩,
    fun ts hts => ?_, fun m hm => ?_⟩
  · simp only [normalize_tunneling_like]
    rw [if_pos hT]
  · simp only [normalize_tunneling_like]
    rw [if_pos hts]
  · simp only [normalize_tunneling_like]
    rw [if_pos hm]

/-- The dense tunneling matrix shape of notebook cell 6 of
`00_types.ipynb` (4 leads × 2 orbitals), with the irrational amplitude
`t0` replaced by 1 for an exact witness; entries `(2, 1)` and `(3, 1)`
have row index greater than column index. -/
def tleadsShape : List (List Coef) :=
  [[(1, 0), (0, 0)], [(1, 0), (0, 0)], [(0, 0), (1, 0)], [(0, 0), (1, 0)]]

/-- Witness for C8 at a 4 × 2 dense matrix, an in-range triplet list and an
in-range mapping. -/
theorem C8_tunneling_shapes_witness :
    (denseShape tleadsShape 4 2 ∧
      ∃ cm, normalize_tunneling_like (.dense tleadsShape) 4 2 = .ok cm ∧
        ∀ a i : ℕ, mlookup cm (a, i) =
          if a < 4 ∧ i < 2 ∧ dget tleadsShape a i ≠ 0 then
            some (dget tleadsShape a i)
          else none) ∧
      ((∀ t ∈ [((3 : ℕ), (1 : ℕ), ((1 : ℚ), (0 : ℚ)))],
          t.1 < 4 ∧ t.2.1 < 2) ∧
        normalize_tunneling_like (.triplets [(3, 1, ((1 : ℚ), (0 : ℚ)))])
            4 2 =
          .ok (buildDict ([((3 : ℕ), (1 : ℕ), ((1 : ℚ), (0 : ℚ)))].map
            tripletEntry))) ∧
      ((∀ e ∈ [(((3 : ℕ), (1 : ℕ)), ((1 : ℚ), (0 : ℚ)))],
          e.1.1 < 4 ∧ e.1.2 < 2) ∧
        normalize_tunneling_like
            (.mapping [(((3 : ℕ), (1 : ℕ)), ((1 : ℚ), (0 : ℚ)))]) 4 2 =
          .ok [(((3 : ℕ), (1 : ℕ)), ((1 : ℚ), (0 : ℚ)))]) :=
  ⟨⟨by decide, (C8_tunneling_shapes 4 2).1 tleadsShape (by decide)⟩,
    ⟨by decide, (C8_tunneling_shapes 4 2).2.1 _ (by decide)⟩,
    ⟨by decide, (C8_tunneling_shapes 4 2).2.2 _ (by decide)⟩⟩
